import Mathlib

/-!
Verification of the auditor-qt consistency-check engine
(`lib/rucio/daemons/auditorqt/consistencycheck/consistency_check.py` and the
profiles `generic.py` / `atlas.py`) against its natural-language specification.

Modelling conventions:
* A dump file is modelled as the list of its lines, exactly as produced by
  Python file iteration / `readlines()`: each line carries its trailing
  terminator (a final line may lack one).
* Python's builtin `str.split()` (no separator argument) splits on runs of
  whitespace and drops empty tokens; `line.strip().split()` yields the same
  token list, so both are modelled by `pySplit`.
* A Python `dict` is modelled as an insertion-ordered association list with
  distinct keys: assignment to an existing key overwrites in place, assignment
  to a fresh key appends.
* List indexing `parts[i]` is modelled by `List.get?`, with `none` standing
  for the `IndexError` that Python raises; fallible code returns
  `Except PyError`.
-/

/-- Runtime errors of the modelled Python code.  `indexError` models the
`IndexError` raised by out-of-range list indexing (`parts[7]` / `parts[10]`
on a short catalog line). -/
inductive PyError where
  | indexError
  deriving DecidableEq, Repr

/-- Accumulator-style worker for `pySplit`: walks the character list, collecting
the current (reversed) token in `acc`. -/
def splitWsAux : List Char → List Char → List String
  | [], acc => if acc.isEmpty then [] else [String.mk acc.reverse]
  | c :: cs, acc =>
    if c.isWhitespace then
      if acc.isEmpty then splitWsAux cs []
      else String.mk acc.reverse :: splitWsAux cs []
    else splitWsAux cs (c :: acc)

/-- Python `str.split()` with no argument: split on runs of whitespace,
discarding empty tokens.  `line.strip().split()` produces the same list. -/
def pySplit (s : String) : List String := splitWsAux s.data []

/-- The reconciliation state: a Python `dict` from file identifier to integer
tally, as an insertion-ordered association list. -/
abbrev OutMap := List (String × Nat)

/-- Lookup, `out[k]` on the reading side / `k in out`. -/
def OutMap.find : OutMap → String → Option Nat
  | [], _ => none
  | (k', v) :: rest, k => if k' = k then some v else OutMap.find rest k

/-- Python `k in out`. -/
def OutMap.contains (m : OutMap) (k : String) : Bool := (OutMap.find m k).isSome

/-- Python `out[k] = v`: overwrite in place when the key exists (keeping its
position, as a Python dict does), otherwise append the new entry. -/
def OutMap.set : OutMap → String → Nat → OutMap
  | [], k, v => [(k, v)]
  | (k', v') :: rest, k, v =>
    if k' = k then (k, v) :: rest else (k', v') :: OutMap.set rest k v

/-- Python `out[k] += d` (only ever executed when `k` is present; on an absent
key it is a no-op here where Python would raise `KeyError`, but no call site
reaches that case). -/
def OutMap.add : OutMap → String → Nat → OutMap
  | [], _, _ => []
  | (k', v') :: rest, k, d =>
    if k' = k then (k', v' + d) :: rest else (k', v') :: OutMap.add rest k d

/-- Keys of the state, in insertion order. -/
def OutMap.keys (m : OutMap) : List String := m.map Prod.fst

/-- Identifier key a catalog line contributes: `parts[7] + '\n'`
(`consistency_check.py` lines 106 and 123). -/
def keyOf (line : String) : Option String :=
  ((pySplit line).get? 7).map (fun t => t ++ "\n")

/-- Availability field of a catalog line: `parts[10]`. -/
def statusOf (line : String) : Option String := (pySplit line).get? 10

/-- One catalog-before line of `consistency_check_faster`
(`consistency_check.py` lines 104-109):
`parts = line.strip().split(); key = parts[7]+'\n'; out[key] = 16;`
`if parts[10]=='A': out[key] += 2`.  Note that `out[key] = 16` executes
before `parts[10]` is read, exactly as in the source. -/
def pass1Line (out : OutMap) (line : String) : Except PyError OutMap :=
  let parts := pySplit line
  match parts.get? 7 with
  | none => .error .indexError
  | some p7 =>
    let key := p7 ++ "\n"
    let out := OutMap.set out key 16
    match parts.get? 10 with
    | none => .error .indexError
    | some p10 => .ok (if p10 = "A" then OutMap.add out key 2 else out)

/-- Pass 1: the catalog-before loop (`consistency_check.py` lines 102-109). -/
def runPass1 (out : OutMap) : List String → Except PyError OutMap
  | [] => .ok out
  | l :: ls =>
    match pass1Line out l with
    | .error e => .error e
    | .ok out' => runPass1 out' ls

/-- One storage line (`consistency_check.py` lines 113-117): the raw line,
terminator included, is the key: `if line in out: out[line] += 8 else:
out[line] = 8`. -/
def pass2Line (out : OutMap) (line : String) : OutMap :=
  if OutMap.contains out line then OutMap.add out line 8
  else OutMap.set out line 8

/-- Pass 2: the storage-dump loop (`consistency_check.py` lines 111-117). -/
def runPass2 (out : OutMap) (storage : List String) : OutMap :=
  storage.foldl pass2Line out

/-- One catalog-after line (`consistency_check.py` lines 121-129):
`key = parts[7]+'\n'; if key in out: out[key] += 4;`
`if parts[10]=='A': out[key] += 1 else: out[key] = 4`.
In the absent-key branch `parts[10]` is never read, exactly as in the
source, so a 8-to-10-field line with a fresh key does not raise. -/
def pass3Line (out : OutMap) (line : String) : Except PyError OutMap :=
  let parts := pySplit line
  match parts.get? 7 with
  | none => .error .indexError
  | some p7 =>
    let key := p7 ++ "\n"
    if OutMap.contains out key then
      let out := OutMap.add out key 4
      match parts.get? 10 with
      | none => .error .indexError
      | some p10 => .ok (if p10 = "A" then OutMap.add out key 1 else out)
    else
      .ok (OutMap.set out key 4)

/-- Pass 3: the catalog-after loop (`consistency_check.py` lines 119-129). -/
def runPass3 (out : OutMap) : List String → Except PyError OutMap
  | [] => .ok out
  | l :: ls =>
    match pass3Line out l with
    | .error e => .error e
    | .ok out' => runPass3 out' ls

/-- Classification of MISSING files: `[k for k in out if out[k]==23]`
(`consistency_check.py` line 131). -/
def missingOf (out : OutMap) : List String :=
  (out.filter (fun p => p.2 = 23)).map Prod.fst

/-- Classification of DARK files: `[k for k in out if out[k]==8]`
(`consistency_check.py` line 132). -/
def darkOf (out : OutMap) : List String :=
  (out.filter (fun p => p.2 = 8)).map Prod.fst

/-- The streaming-map engine variant `consistency_check_faster`
(`consistency_check.py` lines 91-136), as a function of the three dumps'
line lists.  Returns `(missing_files, dark_files)`. -/
def consistency_check_faster (before storage after : List String) :
    Except PyError (List String × List String) :=
  match runPass1 [] before with
  | .error e => .error e
  | .ok out =>
    let out := runPass2 out storage
    match runPass3 out after with
    | .error e => .error e
    | .ok out => .ok (missingOf out, darkOf out)

/-- A catalog line is well formed when it has at least 11 whitespace-separated
fields, so both `parts[7]` and `parts[10]` exist. -/
def wfLine (line : String) : Prop := 11 ≤ (pySplit line).length

instance : DecidablePred wfLine := fun _ => Nat.decLe _ _

deriving instance DecidableEq for Except

/-- The catalog-dump loader `prepare_rucio_dump` (`consistency_check.py`
lines 189-207): for each line it appends `line.split()[7]+'\n'` to the first
list and `line.split()[10]` to the second; a short line raises at the first
missing index. -/
def prepare_rucio_dump : List String → Except PyError (List String × List String)
  | [] => .ok ([], [])
  | l :: ls =>
    match (pySplit l).get? 7, (pySplit l).get? 10 with
    | some p7, some p10 =>
      match prepare_rucio_dump ls with
      | .ok (ks, ss) => .ok ((p7 ++ "\n") :: ks, p10 :: ss)
      | .error e => .error e
    | _, _ => .error .indexError

/-- Pass 1 of `consistency_check_fast` (`consistency_check.py` lines 43-49):
walks the parsed key list and the parallel status list, doing
`out[k] = 16; if status == 'A': out[k] += 2`. -/
def fastPass1 : OutMap → List String → List String → OutMap
  | out, k :: ks, s :: ss =>
    fastPass1
      (if s = "A" then OutMap.add (OutMap.set out k 16) k 2 else OutMap.set out k 16)
      ks ss
  | out, _, _ => out

/-- Pass 3 of `consistency_check_fast` (`consistency_check.py` lines 64-73):
`if k in out: out[k] += 4; if status == 'A': out[k] += 1 else: out[k] = 4`. -/
def fastPass3 : OutMap → List String → List String → OutMap
  | out, k :: ks, s :: ss =>
    fastPass3
      (if OutMap.contains out k then
        (if s = "A" then OutMap.add (OutMap.add out k 4) k 1
          else OutMap.add out k 4)
      else OutMap.set out k 4)
      ks ss
  | out, _, _ => out

/-- The two-list engine variant `consistency_check_fast` (`consistency_check.py`
lines 30-82).  `prepare_rse_dump` is `readlines()`, the identity on the line
list, so the storage loop (lines 56-60, textually identical to the faster
variant's) folds `pass2Line` over the storage lines directly. -/
def consistency_check_fast (before storage after : List String) :
    Except PyError (List String × List String) :=
  match prepare_rucio_dump before with
  | .error e => .error e
  | .ok (ks, ss) =>
    let out := fastPass1 [] ks ss
    let out := runPass2 out storage
    match prepare_rucio_dump after with
    | .error e => .error e
    | .ok (ka, sa) => .ok (missingOf (fastPass3 out ka sa), darkOf (fastPass3 out ka sa))

/-- The `consistency_check` used by `generic_auditor`: the live code of
`generic.py` lines 558-594 repeats `consistency_check_faster`
(`consistency_check.py` lines 100-136) verbatim. -/
def consistency_check : List String → List String → List String →
    Except PyError (List String × List String) := consistency_check_faster

/-- Worker for `replaceFirstSlash`: replaces the first `/` of the character
list by `,` and leaves everything after it untouched. -/
def replaceFirstSlashAux : List Char → List Char
  | [] => []
  | c :: cs => if c = '/' then ',' :: cs else c :: replaceFirstSlashAux cs

/-- Python `s.replace("/", ",", 1)`: replace only the first slash. -/
def replaceFirstSlash (s : String) : String :=
  String.mk (replaceFirstSlashAux s.data)

/-- Result-file lines written by `generic_auditor` (`generic.py` lines
98-113): first `'DARK' + k.replace("/", ",", 1)` for every dark file, then
`'MISSING' + k.replace("/", ",", 1)` for every missing file.  No separator is
written between the label and the identifier, and no newline is appended (the
keys already carry one). -/
def generic_result_lines (missing dark : List String) : List String :=
  dark.map (fun k => "DARK" ++ replaceFirstSlash k) ++
    missing.map (fun k => "MISSING" ++ replaceFirstSlash k)

/-- Result-file lines written by `atlas_auditor` (`atlas.py` lines 240-248):
`'DARK' + ...` for dark files and `'LOST' + ...` for the first component of
the engine result. -/
def atlas_result_lines (lost dark : List String) : List String :=
  dark.map (fun k => "DARK" ++ replaceFirstSlash k) ++
    lost.map (fun k => "LOST" ++ replaceFirstSlash k)

/-- Observable outcome of one `generic_auditor` run: the returned value
(`none` models a propagated exception), whether the consistency check was
executed, the lines written to the results file (`none` when the file is not
touched), and whether the cached dumps were removed. -/
structure AuditorOutcome where
  returned : Option String
  ranCheck : Bool
  writtenLines : Option (List String)
  removedDumps : Bool
  deriving DecidableEq, Repr

/-- Results path computed by `generic_auditor` (`generic.py` lines 85-86):
`f"{results_dir}/result.{rse}_{date:%Y%m%d}"`, with the formatted date
abstracted as the string `dateStr`. -/
def results_path (results_dir rse dateStr : String) : String :=
  results_dir ++ "/result." ++ rse ++ "_" ++ dateStr

/-- Control flow of `generic_auditor` (`generic.py` lines 85-126) after the
dumps are cached, with the filesystem abstracted: `resultsExists` and
`bz2Exists` are the two `os.path.exists` probes of line 88, and the three
dump line lists feed `consistency_check`.  When a results file already
exists the check is skipped, nothing is written, the cached dumps are removed
unless `keepDumps`, and the path is returned (lines 88-92).  Otherwise the
check runs; on success the result lines are written and the path returned
(lines 94-126); a raised error propagates before the results file is opened,
so nothing is written and no dump is removed. -/
def generic_auditor (results_dir rse dateStr : String)
    (resultsExists bz2Exists keepDumps : Bool)
    (before storage after : List String) : AuditorOutcome :=
  let path := results_path results_dir rse dateStr
  if resultsExists || bz2Exists then
    { returned := some path, ranCheck := false, writtenLines := none,
      removedDumps := !keepDumps }
  else
    match consistency_check before storage after with
    | .error _ =>
      { returned := none, ranCheck := true, writtenLines := none,
        removedDumps := false }
    | .ok (missing, dark) =>
      { returned := some path, ranCheck := true,
        writtenLines := some (generic_result_lines missing dark),
        removedDumps := !keepDumps }

/-! ## Basic lemmas about the state map -/

theorem OutMap.find_set_self (m : OutMap) (k : String) (v : Nat) :
    OutMap.find (OutMap.set m k v) k = some v := by
  induction m with
  | nil => simp [OutMap.set, OutMap.find]
  | cons kv rest ih =>
    obtain ⟨k', v'⟩ := kv
    by_cases h : k' = k
    · simp [OutMap.set, OutMap.find, h]
    · simp [OutMap.set, OutMap.find, h, ih]

theorem OutMap.find_set_ne (m : OutMap) (k : String) (v : Nat) (x : String)
    (hx : k ≠ x) : OutMap.find (OutMap.set m k v) x = OutMap.find m x := by
  induction m with
  | nil => simp [OutMap.set, OutMap.find, hx]
  | cons kv rest ih =>
    obtain ⟨k', v'⟩ := kv
    by_cases h : k' = k
    · subst h
      simp [OutMap.set, OutMap.find, hx]
    · simp [OutMap.set, OutMap.find, h, ih]

theorem OutMap.find_add_self (m : OutMap) (k : String) (d : Nat) :
    OutMap.find (OutMap.add m k d) k = (OutMap.find m k).map (· + d) := by
  induction m with
  | nil => simp [OutMap.add, OutMap.find]
  | cons kv rest ih =>
    obtain ⟨k', v'⟩ := kv
    by_cases h : k' = k
    · simp [OutMap.add, OutMap.find, h]
    · simp [OutMap.add, OutMap.find, h, ih]

theorem OutMap.find_add_ne (m : OutMap) (k : String) (d : Nat) (x : String)
    (hx : k ≠ x) : OutMap.find (OutMap.add m k d) x = OutMap.find m x := by
  induction m with
  | nil => simp [OutMap.add, OutMap.find]
  | cons kv rest ih =>
    obtain ⟨k', v'⟩ := kv
    by_cases h : k' = k
    · subst h
      simp [OutMap.add, OutMap.find, hx]
    · simp [OutMap.add, OutMap.find, h, ih]

theorem OutMap.keys_add (m : OutMap) (k : String) (d : Nat) :
    OutMap.keys (OutMap.add m k d) = OutMap.keys m := by
  induction m with
  | nil => simp [OutMap.add]
  | cons kv rest ih =>
    obtain ⟨k', v'⟩ := kv
    by_cases h : k' = k
    · simp [OutMap.add, OutMap.keys, h]
    · simpa [OutMap.add, OutMap.keys, h] using ih

theorem OutMap.mem_keys_set (m : OutMap) (k : String) (v : Nat) (x : String) :
    x ∈ OutMap.keys (OutMap.set m k v) ↔ x ∈ OutMap.keys m ∨ x = k := by
  induction m with
  | nil => simp [OutMap.set, OutMap.keys]
  | cons kv rest ih =>
    obtain ⟨k', v'⟩ := kv
    by_cases h : k' = k
    · subst h
      have hset : OutMap.set ((k', v') :: rest) k' v = (k', v) :: rest := by
        simp [OutMap.set]
      rw [hset]
      simp only [OutMap.keys, List.map_cons, List.mem_cons]
      tauto
    · have hset : OutMap.set ((k', v') :: rest) k v = (k', v') :: OutMap.set rest k v := by
        simp [OutMap.set, h]
      rw [hset]
      simp only [OutMap.keys, List.map_cons, List.mem_cons]
      simp only [OutMap.keys] at ih
      rw [ih]
      tauto

theorem OutMap.nodup_keys_set (m : OutMap) (k : String) (v : Nat)
    (h : (OutMap.keys m).Nodup) : (OutMap.keys (OutMap.set m k v)).Nodup := by
  induction m with
  | nil => simp [OutMap.set, OutMap.keys]
  | cons kv rest ih =>
    obtain ⟨k', v'⟩ := kv
    simp only [OutMap.keys, List.map_cons, List.nodup_cons] at h
    by_cases hk : k' = k
    · subst hk
      simpa [OutMap.set, OutMap.keys, List.nodup_cons] using h
    · have hrest := ih h.2
      simp only [OutMap.set, if_neg hk, OutMap.keys, List.map_cons, List.nodup_cons]
      refine ⟨?_, hrest⟩
      intro hmem
      rcases (OutMap.mem_keys_set rest k v k').mp hmem with h1 | h1
      · exact h.1 h1
      · exact hk h1

theorem OutMap.mem_filter_map_keys (m : OutMap) (p : String × Nat → Bool)
    (x : String) (hx : x ∈ (m.filter p).map Prod.fst) : x ∈ OutMap.keys m :=
  List.map_subset Prod.fst (List.filter_sublist _).subset hx

theorem OutMap.mem_filter_map_iff (m : OutMap) (n : Nat) (x : String)
    (h : (OutMap.keys m).Nodup) :
    x ∈ (m.filter (fun p => p.2 = n)).map Prod.fst ↔ OutMap.find m x = some n := by
  induction m with
  | nil => simp [OutMap.find]
  | cons kv rest ih =>
    obtain ⟨k, v⟩ := kv
    simp only [OutMap.keys, List.map_cons, List.nodup_cons] at h
    have ihr := ih h.2
    by_cases hxk : x = k
    · subst hxk
      by_cases hv : v = n
      · subst hv
        simp [List.filter_cons, OutMap.find]
      · have hfil : List.filter (fun p => decide (p.2 = n)) ((x, v) :: rest)
            = List.filter (fun p => decide (p.2 = n)) rest := by
          simp [List.filter_cons, hv]
        rw [hfil]
        constructor
        · intro hmem
          exact absurd (OutMap.mem_filter_map_keys rest _ x hmem)
            (by simpa [OutMap.keys] using h.1)
        · intro hsome
          rw [show OutMap.find ((x, v) :: rest) x = some v by simp [OutMap.find]] at hsome
          exact absurd (Option.some.inj hsome) hv
    · have hkx : ¬ k = x := fun h' => hxk h'.symm
      have hfind : OutMap.find ((k, v) :: rest) x = OutMap.find rest x := by
        simp [OutMap.find, hkx]
      rw [hfind]
      by_cases hv : v = n
      · have hfil : List.filter (fun p => decide (p.2 = n)) ((k, v) :: rest)
            = (k, v) :: List.filter (fun p => decide (p.2 = n)) rest := by
          simp [List.filter_cons, hv]
        rw [hfil, List.map_cons]
        rw [List.mem_cons]
        constructor
        · intro hmem
          rcases hmem with h1 | h1
          · exact absurd h1 hxk
          · exact ihr.mp h1
        · intro hsome
          exact Or.inr (ihr.mpr hsome)
      · have hfil : List.filter (fun p => decide (p.2 = n)) ((k, v) :: rest)
            = List.filter (fun p => decide (p.2 = n)) rest := by
          simp [List.filter_cons, hv]
        rw [hfil]
        exact ihr

theorem OutMap.nodup_keys_add (m : OutMap) (k : String) (d : Nat)
    (h : (OutMap.keys m).Nodup) : (OutMap.keys (OutMap.add m k d)).Nodup := by
  rw [OutMap.keys_add]
  exact h

/-! ## Pass 1 lemmas -/

theorem wf_get7 (l : String) (h : wfLine l) :
    ∃ p7, (pySplit l).get? 7 = some p7 := by
  cases h7 : (pySplit l).get? 7 with
  | none =>
    have := List.get?_eq_none.mp h7
    exact absurd h (by unfold wfLine; omega)
  | some p7 => exact ⟨p7, rfl⟩

theorem wf_get10 (l : String) (h : wfLine l) :
    ∃ p10, (pySplit l).get? 10 = some p10 := by
  cases h10 : (pySplit l).get? 10 with
  | none =>
    have := List.get?_eq_none.mp h10
    exact absurd h (by unfold wfLine; omega)
  | some p10 => exact ⟨p10, rfl⟩

theorem keyOf_eq_of_get (l : String) (p7 : String)
    (h7 : (pySplit l).get? 7 = some p7) : keyOf l = some (p7 ++ "\n") := by
  unfold keyOf
  rw [h7]
  rfl

theorem pass1Line_eq_of_get (out : OutMap) (l : String) (p7 p10 : String)
    (h7 : (pySplit l).get? 7 = some p7) (h10 : (pySplit l).get? 10 = some p10) :
    pass1Line out l =
      .ok (if p10 = "A"
        then OutMap.add (OutMap.set out (p7 ++ "\n") 16) (p7 ++ "\n") 2
        else OutMap.set out (p7 ++ "\n") 16) := by
  simp only [pass1Line]
  rw [h7, h10]

theorem pass1Line_ok_cases (out : OutMap) (l : String) (o' : OutMap)
    (h : pass1Line out l = .ok o') :
    ∃ p7 p10, (pySplit l).get? 7 = some p7 ∧ (pySplit l).get? 10 = some p10 ∧
      o' = (if p10 = "A"
        then OutMap.add (OutMap.set out (p7 ++ "\n") 16) (p7 ++ "\n") 2
        else OutMap.set out (p7 ++ "\n") 16) := by
  simp only [pass1Line] at h
  cases h7 : (pySplit l).get? 7 with
  | none => rw [h7] at h; cases h
  | some p7 =>
    rw [h7] at h
    cases h10 : (pySplit l).get? 10 with
    | none => rw [h10] at h; cases h
    | some p10 =>
      rw [h10] at h
      exact ⟨p7, p10, rfl, rfl, (Except.ok.inj h).symm⟩

theorem pass1Line_nodup (out : OutMap) (l : String) (o' : OutMap)
    (h : pass1Line out l = .ok o') (hn : (OutMap.keys out).Nodup) :
    (OutMap.keys o').Nodup := by
  obtain ⟨p7, p10, _, _, rfl⟩ := pass1Line_ok_cases out l o' h
  by_cases ha : p10 = "A"
  · rw [if_pos ha]
    exact OutMap.nodup_keys_add _ _ _ (OutMap.nodup_keys_set _ _ _ hn)
  · rw [if_neg ha]
    exact OutMap.nodup_keys_set _ _ _ hn

theorem runPass1_ok_of_wf (lines : List String) (hwf : ∀ l ∈ lines, wfLine l) :
    ∀ out, ∃ out', runPass1 out lines = .ok out' := by
  induction lines with
  | nil => exact fun out => ⟨out, rfl⟩
  | cons l ls ih =>
    intro out
    obtain ⟨p7, h7⟩ := wf_get7 l (hwf l (by simp))
    obtain ⟨p10, h10⟩ := wf_get10 l (hwf l (by simp))
    obtain ⟨out', hout'⟩ := ih (fun l' hl' => hwf l' (by simp [hl'])) _
    refine ⟨out', ?_⟩
    simp only [runPass1, pass1Line_eq_of_get out l p7 p10 h7 h10]
    exact hout'

theorem runPass1_nodup (lines : List String) :
    ∀ (out out' : OutMap), runPass1 out lines = .ok out' →
      (OutMap.keys out).Nodup → (OutMap.keys out').Nodup := by
  induction lines with
  | nil =>
    intro out out' h hn
    simp only [runPass1] at h
    exact (Except.ok.inj h) ▸ hn
  | cons l ls ih =>
    intro out out' h hn
    cases h1 : pass1Line out l with
    | error e =>
      simp only [runPass1, h1] at h
      exact Except.noConfusion h
    | ok o₁ =>
      simp only [runPass1, h1] at h
      exact ih o₁ out' h (pass1Line_nodup out l o₁ h1 hn)

theorem runPass1_find_of_no_key (lines : List String) (x : String) :
    ∀ (out out' : OutMap), (∀ l ∈ lines, keyOf l ≠ some x) →
      runPass1 out lines = .ok out' → OutMap.find out' x = OutMap.find out x := by
  induction lines with
  | nil =>
    intro out out' _ h
    simp only [runPass1] at h
    rw [Except.ok.inj h]
  | cons l ls ih =>
    intro out out' hk h
    cases h1 : pass1Line out l with
    | error e =>
      simp only [runPass1, h1] at h
      exact Except.noConfusion h
    | ok o₁ =>
      simp only [runPass1, h1] at h
      obtain ⟨p7, p10, h7, h10, ho⟩ := pass1Line_ok_cases out l o₁ h1
      have hkey : p7 ++ "\n" ≠ x := by
        intro hx
        exact hk l (by simp) (by rw [keyOf_eq_of_get l p7 h7, hx])
      have hrest := ih o₁ out' (fun l' hl' => hk l' (by simp [hl'])) h
      rw [hrest, ho]
      by_cases ha : p10 = "A"
      · rw [if_pos ha, OutMap.find_add_ne _ _ _ _ hkey, OutMap.find_set_ne _ _ _ _ hkey]
      · rw [if_neg ha, OutMap.find_set_ne _ _ _ _ hkey]

theorem runPass1_find_last (lines : List String) (x : String) :
    ∀ (out out' : OutMap) (llast : String),
      runPass1 out lines = .ok out' →
      (lines.filter (fun l => keyOf l = some x)).getLast? = some llast →
      OutMap.find out' x = some (if statusOf llast = some "A" then 18 else 16) := by
  induction lines with
  | nil =>
    intro out out' llast _ hl
    simp at hl
  | cons l ls ih =>
    intro out out' llast h hl
    cases h1 : pass1Line out l with
    | error e =>
      simp only [runPass1, h1] at h
      exact Except.noConfusion h
    | ok o₁ =>
      simp only [runPass1, h1] at h
      by_cases hk : keyOf l = some x
      · rw [List.filter_cons, if_pos (by simpa using hk)] at hl
        cases hfl : ls.filter (fun l => decide (keyOf l = some x)) with
        | nil =>
          rw [hfl, List.getLast?_singleton] at hl
          have hll : llast = l := (Option.some.inj hl).symm
          have hnone : ∀ l' ∈ ls, keyOf l' ≠ some x := by
            intro l' hl' hcon
            have := List.filter_eq_nil_iff.mp hfl l' hl'
            simp [hcon] at this
          have hfind := runPass1_find_of_no_key ls x o₁ out' hnone h
          rw [hfind]
          obtain ⟨p7, p10, h7, h10, ho⟩ := pass1Line_ok_cases out l o₁ h1
          have hx : p7 ++ "\n" = x := by
            have hkk := keyOf_eq_of_get l p7 h7
            rw [hkk] at hk
            exact Option.some.inj hk
          have hstat : statusOf llast = some p10 := by rw [hll]; exact h10
          rw [ho, hstat, hx]
          by_cases ha : p10 = "A"
          · rw [if_pos ha, OutMap.find_add_self, OutMap.find_set_self]
            simp [ha]
          · rw [if_neg ha, OutMap.find_set_self]
            simp [ha]
        | cons f fs =>
          rw [hfl, List.getLast?_cons_cons, ← hfl] at hl
          exact ih o₁ out' llast h hl
      · rw [List.filter_cons, if_neg (by simpa using hk)] at hl
        exact ih o₁ out' llast h hl

/-! ## Pass 2 lemmas -/

theorem pass2Line_find_self (out : OutMap) (x : String) :
    OutMap.find (pass2Line out x) x = some ((OutMap.find out x).getD 0 + 8) := by
  unfold pass2Line
  cases hf : OutMap.find out x with
  | none => simp [OutMap.contains, hf, OutMap.find_set_self]
  | some v => simp [OutMap.contains, hf, OutMap.find_add_self]

theorem pass2Line_find_ne (out : OutMap) (y x : String) (h : y ≠ x) :
    OutMap.find (pass2Line out y) x = OutMap.find out x := by
  unfold pass2Line
  by_cases hc : OutMap.contains out y
  · simp [hc, OutMap.find_add_ne _ _ _ _ h]
  · simp [hc, OutMap.find_set_ne _ _ _ _ h]

theorem runPass2_cons (out : OutMap) (y : String) (rest : List String) :
    runPass2 out (y :: rest) = runPass2 (pass2Line out y) rest := rfl

theorem runPass2_find (x : String) :
    ∀ (storage : List String) (out : OutMap),
      OutMap.find (runPass2 out storage) x =
        if storage.count x = 0 then OutMap.find out x
        else some ((OutMap.find out x).getD 0 + 8 * storage.count x) := by
  intro storage
  induction storage with
  | nil => intro out; simp [runPass2]
  | cons y rest ih =>
    intro out
    rw [runPass2_cons, ih]
    by_cases hyx : y = x
    · subst hyx
      have hc1 : (y :: rest).count y = rest.count y + 1 := by
        simp [List.count_cons]
      by_cases hcr : rest.count y = 0
      · rw [if_pos hcr, pass2Line_find_self, hc1, hcr, if_neg (by omega)]
      · rw [if_neg hcr, pass2Line_find_self, hc1, if_neg (by omega)]
        simp only [Option.getD_some]
        congr 1
        ring
    · have hcount : (y :: rest).count x = rest.count x := by
        simp [List.count_cons, hyx]
      rw [hcount, pass2Line_find_ne out y x hyx]

theorem pass2Line_nodup (out : OutMap) (l : String)
    (hn : (OutMap.keys out).Nodup) : (OutMap.keys (pass2Line out l)).Nodup := by
  unfold pass2Line
  by_cases hc : OutMap.contains out l
  · simpa [hc, OutMap.keys_add] using hn
  · simpa [hc] using OutMap.nodup_keys_set out l 8 hn

theorem runPass2_nodup : ∀ (storage : List String) (out : OutMap),
    (OutMap.keys out).Nodup → (OutMap.keys (runPass2 out storage)).Nodup := by
  intro storage
  induction storage with
  | nil => intro out hn; exact hn
  | cons y rest ih =>
    intro out hn
    rw [runPass2_cons]
    exact ih _ (pass2Line_nodup out y hn)

theorem runPass2_keys_sub (x : String) : ∀ (storage : List String) (out : OutMap),
    x ∈ OutMap.keys (runPass2 out storage) → x ∈ OutMap.keys out ∨ x ∈ storage := by
  intro storage
  induction storage with
  | nil => intro out hx; exact Or.inl hx
  | cons y rest ih =>
    intro out hx
    rw [runPass2_cons] at hx
    rcases ih _ hx with h1 | h1
    · unfold pass2Line at h1
      by_cases hc : OutMap.contains out y
      · rw [if_pos hc, OutMap.keys_add] at h1
        exact Or.inl h1
      · rw [if_neg hc] at h1
        rcases (OutMap.mem_keys_set out y 8 x).mp h1 with h2 | h2
        · exact Or.inl h2
        · exact Or.inr (by simp [h2])
    · exact Or.inr (by simp [h1])

/-! ## Pass 3 lemmas -/

theorem pass3Line_eq_of_get (out : OutMap) (l : String) (p7 p10 : String)
    (h7 : (pySplit l).get? 7 = some p7) (h10 : (pySplit l).get? 10 = some p10) :
    pass3Line out l =
      .ok (if OutMap.contains out (p7 ++ "\n")
        then (if p10 = "A"
          then OutMap.add (OutMap.add out (p7 ++ "\n") 4) (p7 ++ "\n") 1
          else OutMap.add out (p7 ++ "\n") 4)
        else OutMap.set out (p7 ++ "\n") 4) := by
  simp only [pass3Line, h7, h10]
  split_ifs <;> rfl

theorem pass3Line_ok_cases (out : OutMap) (l : String) (o' : OutMap)
    (h : pass3Line out l = .ok o') :
    ∃ p7, (pySplit l).get? 7 = some p7 ∧
      ((OutMap.contains out (p7 ++ "\n") = true ∧
          ∃ p10, (pySplit l).get? 10 = some p10 ∧
            o' = (if p10 = "A"
              then OutMap.add (OutMap.add out (p7 ++ "\n") 4) (p7 ++ "\n") 1
              else OutMap.add out (p7 ++ "\n") 4)) ∨
        (OutMap.contains out (p7 ++ "\n") = false ∧
          o' = OutMap.set out (p7 ++ "\n") 4)) := by
  simp only [pass3Line] at h
  split at h
  · exact Except.noConfusion h
  · rename_i p7 h7
    split at h
    · rename_i hc
      split at h
      · exact Except.noConfusion h
      · rename_i p10 h10
        exact ⟨p7, h7, Or.inl ⟨hc, p10, h10, (Except.ok.inj h).symm⟩⟩
    · rename_i hc
      exact ⟨p7, h7, Or.inr ⟨by simpa using hc, (Except.ok.inj h).symm⟩⟩

theorem pass3Line_nodup (out : OutMap) (l : String) (o' : OutMap)
    (h : pass3Line out l = .ok o') (hn : (OutMap.keys out).Nodup) :
    (OutMap.keys o').Nodup := by
  obtain ⟨p7, h7, hcase⟩ := pass3Line_ok_cases out l o' h
  rcases hcase with ⟨_, p10, _, rfl⟩ | ⟨_, rfl⟩
  · by_cases ha : p10 = "A"
    · rw [if_pos ha]
      exact OutMap.nodup_keys_add _ _ _ (OutMap.nodup_keys_add _ _ _ hn)
    · rw [if_neg ha]
      exact OutMap.nodup_keys_add _ _ _ hn
  · exact OutMap.nodup_keys_set _ _ _ hn

theorem runPass3_ok_of_wf (lines : List String) (hwf : ∀ l ∈ lines, wfLine l) :
    ∀ out, ∃ out', runPass3 out lines = .ok out' := by
  induction lines with
  | nil => exact fun out => ⟨out, rfl⟩
  | cons l ls ih =>
    intro out
    obtain ⟨p7, h7⟩ := wf_get7 l (hwf l (by simp))
    obtain ⟨p10, h10⟩ := wf_get10 l (hwf l (by simp))
    obtain ⟨out', hout'⟩ := ih (fun l' hl' => hwf l' (by simp [hl'])) _
    refine ⟨out', ?_⟩
    simp only [runPass3, pass3Line_eq_of_get out l p7 p10 h7 h10]
    exact hout'

theorem runPass3_nodup (lines : List String) :
    ∀ (out out' : OutMap), runPass3 out lines = .ok out' →
      (OutMap.keys out).Nodup → (OutMap.keys out').Nodup := by
  induction lines with
  | nil =>
    intro out out' h hn
    simp only [runPass3] at h
    exact (Except.ok.inj h) ▸ hn
  | cons l ls ih =>
    intro out out' h hn
    cases h1 : pass3Line out l with
    | error e =>
      simp only [runPass3, h1] at h
      exact Except.noConfusion h
    | ok o₁ =>
      simp only [runPass3, h1] at h
      exact ih o₁ out' h (pass3Line_nodup out l o₁ h1 hn)

theorem runPass3_find_of_no_key (lines : List String) (x : String) :
    ∀ (out out' : OutMap), (∀ l ∈ lines, keyOf l ≠ some x) →
      runPass3 out lines = .ok out' → OutMap.find out' x = OutMap.find out x := by
  induction lines with
  | nil =>
    intro out out' _ h
    simp only [runPass3] at h
    rw [Except.ok.inj h]
  | cons l ls ih =>
    intro out out' hk h
    cases h1 : pass3Line out l with
    | error e =>
      simp only [runPass3, h1] at h
      exact Except.noConfusion h
    | ok o₁ =>
      simp only [runPass3, h1] at h
      obtain ⟨p7, h7, hcase⟩ := pass3Line_ok_cases out l o₁ h1
      have hkey : p7 ++ "\n" ≠ x := by
        intro hx
        exact hk l (by simp) (by rw [keyOf_eq_of_get l p7 h7, hx])
      have hrest := ih o₁ out' (fun l' hl' => hk l' (by simp [hl'])) h
      rw [hrest]
      rcases hcase with ⟨_, p10, _, rfl⟩ | ⟨_, rfl⟩
      · by_cases ha : p10 = "A"
        · rw [if_pos ha, OutMap.find_add_ne _ _ _ _ hkey, OutMap.find_add_ne _ _ _ _ hkey]
        · rw [if_neg ha, OutMap.find_add_ne _ _ _ _ hkey]
      · rw [OutMap.find_set_ne _ _ _ _ hkey]

/-! ## Key provenance -/

theorem runPass1_keys_sub (x : String) : ∀ (lines : List String) (out out' : OutMap),
    runPass1 out lines = .ok out' → x ∈ OutMap.keys out' →
      x ∈ OutMap.keys out ∨ ∃ l ∈ lines, keyOf l = some x := by
  intro lines
  induction lines with
  | nil =>
    intro out out' h hx
    simp only [runPass1] at h
    exact Or.inl ((Except.ok.inj h) ▸ hx)
  | cons l ls ih =>
    intro out out' h hx
    cases h1 : pass1Line out l with
    | error e =>
      simp only [runPass1, h1] at h
      exact Except.noConfusion h
    | ok o₁ =>
      simp only [runPass1, h1] at h
      rcases ih o₁ out' h hx with h2 | h2
      · obtain ⟨p7, p10, h7, _, ho⟩ := pass1Line_ok_cases out l o₁ h1
        rw [ho] at h2
        have hset : x ∈ OutMap.keys (OutMap.set out (p7 ++ "\n") 16) := by
          by_cases ha : p10 = "A"
          · rw [if_pos ha, OutMap.keys_add] at h2
            exact h2
          · rw [if_neg ha] at h2
            exact h2
        rcases (OutMap.mem_keys_set out (p7 ++ "\n") 16 x).mp hset with h3 | h3
        · exact Or.inl h3
        · exact Or.inr ⟨l, by simp, by rw [keyOf_eq_of_get l p7 h7, h3]⟩
      · obtain ⟨l', hl', hk⟩ := h2
        exact Or.inr ⟨l', by simp [hl'], hk⟩

theorem runPass3_keys_sub (x : String) : ∀ (lines : List String) (out out' : OutMap),
    runPass3 out lines = .ok out' → x ∈ OutMap.keys out' →
      x ∈ OutMap.keys out ∨ ∃ l ∈ lines, keyOf l = some x := by
  intro lines
  induction lines with
  | nil =>
    intro out out' h hx
    simp only [runPass3] at h
    exact Or.inl ((Except.ok.inj h) ▸ hx)
  | cons l ls ih =>
    intro out out' h hx
    cases h1 : pass3Line out l with
    | error e =>
      simp only [runPass3, h1] at h
      exact Except.noConfusion h
    | ok o₁ =>
      simp only [runPass3, h1] at h
      rcases ih o₁ out' h hx with h2 | h2
      · obtain ⟨p7, h7, hcase⟩ := pass3Line_ok_cases out l o₁ h1
        have hmem : x ∈ OutMap.keys out ∨ x = p7 ++ "\n" := by
          rcases hcase with ⟨_, p10, _, rfl⟩ | ⟨_, rfl⟩
          · by_cases ha : p10 = "A"
            · rw [if_pos ha, OutMap.keys_add, OutMap.keys_add] at h2
              exact Or.inl h2
            · rw [if_neg ha, OutMap.keys_add] at h2
              exact Or.inl h2
          · exact (OutMap.mem_keys_set out (p7 ++ "\n") 4 x).mp h2
        rcases hmem with h3 | h3
        · exact Or.inl h3
        · exact Or.inr ⟨l, by simp, by rw [keyOf_eq_of_get l p7 h7, h3]⟩
      · obtain ⟨l', hl', hk⟩ := h2
        exact Or.inr ⟨l', by simp [hl'], hk⟩

/-! ## Tally bounds -/

/-- All tallies in the state are at most `B`. -/
def boundedBy (m : OutMap) (B : Nat) : Prop :=
  ∀ x v, OutMap.find m x = some v → v ≤ B

theorem boundedBy_set (m : OutMap) (k : String) (v B : Nat)
    (hm : boundedBy m B) (hv : v ≤ B) : boundedBy (OutMap.set m k v) B := by
  intro x w hw
  by_cases hx : k = x
  · subst hx
    rw [OutMap.find_set_self] at hw
    exact (Option.some.inj hw) ▸ hv
  · rw [OutMap.find_set_ne _ _ _ _ hx] at hw
    exact hm x w hw

theorem boundedBy_mono (m : OutMap) (B B' : Nat) (h : B ≤ B')
    (hm : boundedBy m B) : boundedBy m B' :=
  fun x v hv => le_trans (hm x v hv) h

theorem pass1Line_boundedBy (out : OutMap) (l : String) (o' : OutMap)
    (h : pass1Line out l = .ok o') (hb : boundedBy out 18) : boundedBy o' 18 := by
  obtain ⟨p7, p10, _, _, rfl⟩ := pass1Line_ok_cases out l o' h
  have hset : boundedBy (OutMap.set out (p7 ++ "\n") 16) 18 :=
    boundedBy_set out _ 16 18 hb (by omega)
  by_cases ha : p10 = "A"
  · rw [if_pos ha]
    intro x v hv
    by_cases hx : p7 ++ "\n" = x
    · subst hx
      rw [OutMap.find_add_self, OutMap.find_set_self] at hv
      simp at hv
      omega
    · rw [OutMap.find_add_ne _ _ _ _ hx] at hv
      exact hset x v hv
  · rw [if_neg ha]
    exact hset

theorem runPass1_boundedBy (lines : List String) : ∀ (out out' : OutMap),
    runPass1 out lines = .ok out' → boundedBy out 18 → boundedBy out' 18 := by
  induction lines with
  | nil =>
    intro out out' h hb
    simp only [runPass1] at h
    exact (Except.ok.inj h) ▸ hb
  | cons l ls ih =>
    intro out out' h hb
    cases h1 : pass1Line out l with
    | error e =>
      simp only [runPass1, h1] at h
      exact Except.noConfusion h
    | ok o₁ =>
      simp only [runPass1, h1] at h
      exact ih o₁ out' h (pass1Line_boundedBy out l o₁ h1 hb)

theorem runPass2_boundedBy : ∀ (storage : List String) (out : OutMap),
    storage.Nodup → boundedBy out 26 →
    (∀ l ∈ storage, ∀ v, OutMap.find out l = some v → v ≤ 18) →
    boundedBy (runPass2 out storage) 26 := by
  intro storage
  induction storage with
  | nil => intro out _ hb _; exact hb
  | cons y rest ih =>
    intro out hnd hb hlow
    rw [runPass2_cons]
    have hy := (List.nodup_cons.mp hnd).1
    refine ih _ (List.nodup_cons.mp hnd).2 ?_ ?_
    · intro x v hv
      by_cases hx : y = x
      · subst hx
        rw [pass2Line_find_self] at hv
        cases hf : OutMap.find out y with
        | none => rw [hf] at hv; simp at hv; omega
        | some w =>
          rw [hf] at hv
          simp at hv
          have := hlow y (by simp) w hf
          omega
      · rw [pass2Line_find_ne out y x hx] at hv
        exact hb x v hv
    · intro l hl v hv
      have hne : y ≠ l := fun he => hy (he ▸ hl)
      rw [pass2Line_find_ne out y l hne] at hv
      exact hlow l (by simp [hl]) v hv

theorem runPass3_boundedBy (lines : List String) : ∀ (out out' : OutMap),
    lines.Pairwise (fun a b => keyOf a ≠ keyOf b ∨ keyOf a = none) →
    runPass3 out lines = .ok out' → boundedBy out 31 →
    (∀ l ∈ lines, ∀ k v, keyOf l = some k → OutMap.find out k = some v → v ≤ 26) →
    boundedBy out' 31 := by
  induction lines with
  | nil =>
    intro out out' _ h hb _
    simp only [runPass3] at h
    exact (Except.ok.inj h) ▸ hb
  | cons l ls ih =>
    intro out out' hpw h hb hlow
    cases h1 : pass3Line out l with
    | error e =>
      simp only [runPass3, h1] at h
      exact Except.noConfusion h
    | ok o₁ =>
      simp only [runPass3, h1] at h
      obtain ⟨p7, h7, hcase⟩ := pass3Line_ok_cases out l o₁ h1
      have hkey : keyOf l = some (p7 ++ "\n") := keyOf_eq_of_get l p7 h7
      have hb₁ : boundedBy o₁ 31 := by
        rcases hcase with ⟨_, p10, _, rfl⟩ | ⟨_, rfl⟩
        · have hself : ∀ v, OutMap.find out (p7 ++ "\n") = some v → v ≤ 26 :=
            fun v hv => hlow l (by simp) (p7 ++ "\n") v hkey hv
          by_cases ha : p10 = "A"
          · rw [if_pos ha]
            intro x v hv
            by_cases hx : p7 ++ "\n" = x
            · subst hx
              rw [OutMap.find_add_self, OutMap.find_add_self] at hv
              cases hf : OutMap.find out (p7 ++ "\n") with
              | none => rw [hf] at hv; simp at hv
              | some w =>
                rw [hf] at hv
                simp at hv
                have := hself w hf
                omega
            · rw [OutMap.find_add_ne _ _ _ _ hx, OutMap.find_add_ne _ _ _ _ hx] at hv
              exact hb x v hv
          · rw [if_neg ha]
            intro x v hv
            by_cases hx : p7 ++ "\n" = x
            · subst hx
              rw [OutMap.find_add_self] at hv
              cases hf : OutMap.find out (p7 ++ "\n") with
              | none => rw [hf] at hv; simp at hv
              | some w =>
                rw [hf] at hv
                simp at hv
                have := hself w hf
                omega
            · rw [OutMap.find_add_ne _ _ _ _ hx] at hv
              exact hb x v hv
        · exact boundedBy_set out _ 4 31 hb (by omega)
      have hlow₁ : ∀ l' ∈ ls, ∀ k v, keyOf l' = some k →
          OutMap.find o₁ k = some v → v ≤ 26 := by
        intro l' hl' k v hk' hv
        have hdiff : keyOf l ≠ keyOf l' ∨ keyOf l = none :=
          (List.pairwise_cons.mp hpw).1 l' hl'
        have hne : p7 ++ "\n" ≠ k := by
          intro he
          rcases hdiff with hd | hd
          · exact hd (by rw [hkey, hk', he])
          · rw [hkey] at hd
            exact Option.noConfusion hd
        have hfind : OutMap.find o₁ k = OutMap.find out k := by
          rcases hcase with ⟨_, p10, _, rfl⟩ | ⟨_, rfl⟩
          · by_cases ha : p10 = "A"
            · rw [if_pos ha, OutMap.find_add_ne _ _ _ _ hne, OutMap.find_add_ne _ _ _ _ hne]
            · rw [if_neg ha, OutMap.find_add_ne _ _ _ _ hne]
          · rw [OutMap.find_set_ne _ _ _ _ hne]
        rw [hfind] at hv
        exact hlow l' (by simp [hl']) k v hk' hv
      exact ih o₁ out' (List.pairwise_cons.mp hpw).2 h hb₁ hlow₁

/-! ## Error propagation -/

theorem pass1Line_error_of_bad (out : OutMap) (l : String)
    (h : (pySplit l).length < 11) : pass1Line out l = .error .indexError := by
  simp only [pass1Line]
  cases h7 : (pySplit l).get? 7 with
  | none => rfl
  | some p7 =>
    have h10 : (pySplit l).get? 10 = none := List.get?_eq_none.mpr (by omega)
    rw [h10]

theorem runPass1_error_of_bad : ∀ (lines : List String) (out : OutMap),
    (∃ l ∈ lines, (pySplit l).length < 11) →
    ∃ e, runPass1 out lines = .error e := by
  intro lines
  induction lines with
  | nil =>
    intro out h
    obtain ⟨l, hl, _⟩ := h
    exact absurd hl (List.not_mem_nil l)
  | cons l ls ih =>
    intro out h
    cases h1 : pass1Line out l with
    | error e =>
      refine ⟨e, ?_⟩
      simp only [runPass1, h1]
    | ok o₁ =>
      obtain ⟨lbad, hmem, hbad⟩ := h
      rcases List.mem_cons.mp hmem with rfl | hmem'
      · rw [pass1Line_error_of_bad out lbad hbad] at h1
        exact Except.noConfusion h1
      · obtain ⟨e, he⟩ := ih o₁ ⟨lbad, hmem', hbad⟩
        refine ⟨e, ?_⟩
        simp only [runPass1, h1]
        exact he

theorem pass3Line_error_of_short (out : OutMap) (l : String)
    (h : (pySplit l).length < 8) : pass3Line out l = .error .indexError := by
  simp only [pass3Line]
  have h7 : (pySplit l).get? 7 = none := List.get?_eq_none.mpr (by omega)
  rw [h7]

theorem runPass3_error_of_short : ∀ (lines : List String) (out : OutMap),
    (∃ l ∈ lines, (pySplit l).length < 8) →
    ∃ e, runPass3 out lines = .error e := by
  intro lines
  induction lines with
  | nil =>
    intro out h
    obtain ⟨l, hl, _⟩ := h
    exact absurd hl (List.not_mem_nil l)
  | cons l ls ih =>
    intro out h
    cases h1 : pass3Line out l with
    | error e =>
      refine ⟨e, ?_⟩
      simp only [runPass3, h1]
    | ok o₁ =>
      obtain ⟨lbad, hmem, hbad⟩ := h
      rcases List.mem_cons.mp hmem with rfl | hmem'
      · rw [pass3Line_error_of_short out lbad hbad] at h1
        exact Except.noConfusion h1
      · obtain ⟨e, he⟩ := ih o₁ ⟨lbad, hmem', hbad⟩
        refine ⟨e, ?_⟩
        simp only [runPass3, h1]
        exact he

/-! ## Agreement of the two-list and streaming variants -/

theorem pass1_agree : ∀ (lines : List String) (out : OutMap),
    (∀ l ∈ lines, wfLine l) →
    ∃ ks ss, prepare_rucio_dump lines = .ok (ks, ss) ∧
      runPass1 out lines = .ok (fastPass1 out ks ss) := by
  intro lines
  induction lines with
  | nil => exact fun out _ => ⟨[], [], rfl, rfl⟩
  | cons l ls ih =>
    intro out hwf
    obtain ⟨p7, h7⟩ := wf_get7 l (hwf l (by simp))
    obtain ⟨p10, h10⟩ := wf_get10 l (hwf l (by simp))
    obtain ⟨ks, ss, hprep, hrun⟩ :=
      ih (if p10 = "A"
        then OutMap.add (OutMap.set out (p7 ++ "\n") 16) (p7 ++ "\n") 2
        else OutMap.set out (p7 ++ "\n") 16)
        (fun l' hl' => hwf l' (by simp [hl']))
    refine ⟨(p7 ++ "\n") :: ks, p10 :: ss, ?_, ?_⟩
    · simp only [prepare_rucio_dump, h7, h10, hprep]
    · simp only [runPass1, pass1Line_eq_of_get out l p7 p10 h7 h10]
      exact hrun

theorem pass3_agree : ∀ (lines : List String) (out : OutMap),
    (∀ l ∈ lines, wfLine l) →
    ∃ ks ss, prepare_rucio_dump lines = .ok (ks, ss) ∧
      runPass3 out lines = .ok (fastPass3 out ks ss) := by
  intro lines
  induction lines with
  | nil => exact fun out _ => ⟨[], [], rfl, rfl⟩
  | cons l ls ih =>
    intro out hwf
    obtain ⟨p7, h7⟩ := wf_get7 l (hwf l (by simp))
    obtain ⟨p10, h10⟩ := wf_get10 l (hwf l (by simp))
    obtain ⟨ks, ss, hprep, hrun⟩ :=
      ih (if OutMap.contains out (p7 ++ "\n")
        then (if p10 = "A"
          then OutMap.add (OutMap.add out (p7 ++ "\n") 4) (p7 ++ "\n") 1
          else OutMap.add out (p7 ++ "\n") 4)
        else OutMap.set out (p7 ++ "\n") 4)
        (fun l' hl' => hwf l' (by simp [hl']))
    refine ⟨(p7 ++ "\n") :: ks, p10 :: ss, ?_, ?_⟩
    · simp only [prepare_rucio_dump, h7, h10, hprep]
    · simp only [runPass3, pass3Line_eq_of_get out l p7 p10 h7 h10]
      exact hrun

theorem keyOf_some_elim (l x : String) (h : keyOf l = some x) :
    ∃ p7, (pySplit l).get? 7 = some p7 ∧ x = p7 ++ "\n" := by
  unfold keyOf at h
  obtain ⟨p7, h7, he⟩ := Option.map_eq_some'.mp h
  exact ⟨p7, h7, he.symm⟩

/-! ## Claim theorems -/

/-- C1: for every well-formed input triple (each catalog line has at least 11
whitespace-separated fields) the engine returns as MISSING exactly the
identifiers whose final tally equals 23 and as DARK exactly the identifiers
whose final tally equals 8; an identifier with any other final tally appears
in neither output list. -/
theorem c1_classification_exact (before storage after : List String)
    (wfb : ∀ l ∈ before, wfLine l) (wfa : ∀ l ∈ after, wfLine l) :
    ∃ out1 out3,
      runPass1 [] before = .ok out1 ∧
      runPass3 (runPass2 out1 storage) after = .ok out3 ∧
      consistency_check_faster before storage after =
        .ok (missingOf out3, darkOf out3) ∧
      (∀ x, x ∈ missingOf out3 ↔ OutMap.find out3 x = some 23) ∧
      (∀ x, x ∈ darkOf out3 ↔ OutMap.find out3 x = some 8) := by
  obtain ⟨out1, h1⟩ := runPass1_ok_of_wf before wfb []
  obtain ⟨out3, h3⟩ := runPass3_ok_of_wf after wfa (runPass2 out1 storage)
  have hn1 : (OutMap.keys out1).Nodup :=
    runPass1_nodup before [] out1 h1 (by simp [OutMap.keys])
  have hn2 := runPass2_nodup storage out1 hn1
  have hn3 := runPass3_nodup after _ out3 h3 hn2
  refine ⟨out1, out3, h1, h3, ?_, ?_, ?_⟩
  · simp only [consistency_check_faster, h1, h3]
  · exact fun x => OutMap.mem_filter_map_iff out3 23 x hn3
  · exact fun x => OutMap.mem_filter_map_iff out3 8 x hn3

theorem c1_witness :
    ∃ out1 out3,
      runPass1 [] ["0 1 2 3 4 5 6 a/b 8 9 A\n"] = .ok out1 ∧
      runPass3 (runPass2 out1 ["c/d\n"]) ["0 1 2 3 4 5 6 a/b 8 9 A\n"] = .ok out3 ∧
      consistency_check_faster ["0 1 2 3 4 5 6 a/b 8 9 A\n"] ["c/d\n"]
          ["0 1 2 3 4 5 6 a/b 8 9 A\n"] = .ok (missingOf out3, darkOf out3) ∧
      (∀ x, x ∈ missingOf out3 ↔ OutMap.find out3 x = some 23) ∧
      (∀ x, x ∈ darkOf out3 ↔ OutMap.find out3 x = some 8) :=
  c1_classification_exact _ _ _ (by decide) (by decide)

/-- C9: in pass 1 the tally of an identifier that occurs on several lines is
determined solely by the last occurrence: 16, plus 2 exactly when that last
occurrence's status field is `A`; earlier occurrences are overwritten. -/
theorem c9_last_write_wins (lines : List String) (out : OutMap)
    (k llast : String) (h : runPass1 [] lines = .ok out)
    (hl : (lines.filter (fun l => keyOf l = some k)).getLast? = some llast) :
    OutMap.find out k = some (if statusOf llast = some "A" then 18 else 16) :=
  runPass1_find_last lines k [] out llast h hl

theorem c9_witness :
    OutMap.find [("x/y" ++ "\n", 16)] ("x/y" ++ "\n") =
      some (if statusOf "0 1 2 3 4 5 6 x/y 8 9 U\n" = some "A" then 18 else 16) :=
  c9_last_write_wins
    ["0 1 2 3 4 5 6 x/y 8 9 A\n", "0 1 2 3 4 5 6 x/y 8 9 U\n"]
    [("x/y" ++ "\n", 16)] ("x/y" ++ "\n") "0 1 2 3 4 5 6 x/y 8 9 U\n"
    (by decide) (by decide)

/-- C2 counterexample: a catalog-after record that is available and whose
identifier is not yet present is inserted with tally 4, not 4 + 1 as the
claim states. -/
theorem c2_counterexample :
    runPass3 [] ["0 1 2 3 4 5 6 n/f 8 9 A"] = .ok [("n/f" ++ "\n", 4)] ∧
    runPass3 [] ["0 1 2 3 4 5 6 n/f 8 9 A"] ≠ .ok [("n/f" ++ "\n", 4 + 1)] := by
  constructor
  · decide
  · decide

/-- C2 amended: in pass 3, a record whose identifier is already present adds
4 to its tally plus 1 when available, while a record whose identifier is not
yet present is inserted with tally 4 regardless of availability. -/
theorem c2_pass3_amended (out : OutMap) (l : String) (p7 p10 : String)
    (h7 : (pySplit l).get? 7 = some p7) (h10 : (pySplit l).get? 10 = some p10) :
    (∀ v, OutMap.find out (p7 ++ "\n") = some v →
      ∃ o', pass3Line out l = .ok o' ∧
        OutMap.find o' (p7 ++ "\n") = some (v + 4 + (if p10 = "A" then 1 else 0))) ∧
    (OutMap.find out (p7 ++ "\n") = none →
      pass3Line out l = .ok (OutMap.set out (p7 ++ "\n") 4) ∧
      OutMap.find (OutMap.set out (p7 ++ "\n") 4) (p7 ++ "\n") = some 4) := by
  constructor
  · intro v hv
    have hc : OutMap.contains out (p7 ++ "\n") = true := by
      simp [OutMap.contains, hv]
    refine ⟨_, pass3Line_eq_of_get out l p7 p10 h7 h10, ?_⟩
    rw [if_pos hc]
    by_cases ha : p10 = "A"
    · rw [if_pos ha, if_pos ha, OutMap.find_add_self, OutMap.find_add_self, hv]
      simp
    · rw [if_neg ha, if_neg ha, OutMap.find_add_self, hv]
      simp
  · intro hv
    have hc : ¬ (OutMap.contains out (p7 ++ "\n") = true) := by
      simp [OutMap.contains, hv]
    constructor
    · rw [pass3Line_eq_of_get out l p7 p10 h7 h10, if_neg hc]
    · exact OutMap.find_set_self out (p7 ++ "\n") 4

theorem c2_witness :
    ∃ o', pass3Line [("p/q" ++ "\n", 8)] "0 1 2 3 4 5 6 p/q 8 9 A" = .ok o' ∧
      OutMap.find o' ("p/q" ++ "\n") = some (8 + 4 + (if "A" = "A" then 1 else 0)) :=
  (c2_pass3_amended [("p/q" ++ "\n", 8)] "0 1 2 3 4 5 6 p/q 8 9 A" "p/q" "A"
    (by decide) (by decide)).1 8 (by decide)

/-- C3 counterexample: an identifier appearing exactly twice in the storage
dump and in neither catalog dump ends with tally 16 and is reported DARK zero
times, not once. -/
theorem c3_counterexample :
    consistency_check_faster [] ["d/f\n", "d/f\n"] [] = .ok ([], []) ∧
    ¬ (List.count "d/f\n" ([] : List String) = 1) := by
  constructor
  · decide
  · decide

/-- C3 amended: an identifier appearing exactly twice in the storage dump and
in neither catalog dump accumulates tally 16 and therefore appears in neither
the DARK nor the MISSING output. -/
theorem c3_duplicate_storage_amended (before storage after : List String)
    (x : String)
    (wfb : ∀ l ∈ before, wfLine l) (wfa : ∀ l ∈ after, wfLine l)
    (hcount : storage.count x = 2)
    (hb : ∀ l ∈ before, keyOf l ≠ some x) (ha : ∀ l ∈ after, keyOf l ≠ some x) :
    ∃ missing dark,
      consistency_check_faster before storage after = .ok (missing, dark) ∧
      x ∉ dark ∧ x ∉ missing := by
  obtain ⟨out1, h1⟩ := runPass1_ok_of_wf before wfb []
  obtain ⟨out3, h3⟩ := runPass3_ok_of_wf after wfa (runPass2 out1 storage)
  have hn1 : (OutMap.keys out1).Nodup :=
    runPass1_nodup before [] out1 h1 (by simp [OutMap.keys])
  have hn2 := runPass2_nodup storage out1 hn1
  have hn3 := runPass3_nodup after _ out3 h3 hn2
  have hf1 : OutMap.find out1 x = none := by
    rw [runPass1_find_of_no_key before x [] out1 hb h1]
    rfl
  have hf2 : OutMap.find (runPass2 out1 storage) x = some 16 := by
    rw [runPass2_find x storage out1, hcount, hf1]
    norm_num
  have hf3 : OutMap.find out3 x = some 16 := by
    rw [runPass3_find_of_no_key after x _ out3 ha h3, hf2]
  refine ⟨missingOf out3, darkOf out3, ?_, ?_, ?_⟩
  · simp only [consistency_check_faster, h1, h3]
  · intro hmem
    have hm := (OutMap.mem_filter_map_iff out3 8 x hn3).mp hmem
    rw [hf3] at hm
    exact absurd (Option.some.inj hm) (by omega)
  · intro hmem
    have hm := (OutMap.mem_filter_map_iff out3 23 x hn3).mp hmem
    rw [hf3] at hm
    exact absurd (Option.some.inj hm) (by omega)

theorem c3_witness :
    ∃ missing dark,
      consistency_check_faster ["0 1 2 3 4 5 6 a/b 8 9 A\n"]
        ["d/f\n", "d/f\n"] ["0 1 2 3 4 5 6 a/b 8 9 A\n"] = .ok (missing, dark) ∧
      "d/f\n" ∉ dark ∧ "d/f\n" ∉ missing :=
  c3_duplicate_storage_amended _ _ _ _
    (by decide) (by decide) (by decide) (by decide) (by decide)

/-- C4 counterexample: with 32 copies of the same storage line the tally
reaches 256, which is not below 256 and overflows an 8-bit counter. -/
theorem c4_counterexample :
    OutMap.find (runPass2 [] (List.replicate 32 "x\n")) "x\n" = some 256 ∧
    ¬ (256 < 256) ∧
    consistency_check_faster [] (List.replicate 32 "x\n") [] = .ok ([], []) := by
  refine ⟨?_, ?_, ?_⟩
  · decide
  · decide
  · decide

/-- C4 amended: when every identifier occurs at most once in the storage dump
and at most once in the catalog-after dump, every tally held at any point of
the run is at most 31 (16+2+8+4+1), well below 256, so an 8-bit counter
suffices; with repeated lines the tally grows by 8 per extra storage
occurrence and is unbounded. -/
theorem c4_tally_bound_amended (before storage after : List String)
    (out1 out3 : OutMap)
    (h1 : runPass1 [] before = .ok out1)
    (h3 : runPass3 (runPass2 out1 storage) after = .ok out3)
    (hnd : storage.Nodup)
    (hpw : after.Pairwise (fun a b => keyOf a ≠ keyOf b)) :
    boundedBy out1 18 ∧ boundedBy (runPass2 out1 storage) 26 ∧
      boundedBy out3 31 := by
  have hb1 : boundedBy out1 18 :=
    runPass1_boundedBy before [] out1 h1
      (by intro x v hv; simp [OutMap.find] at hv)
  have hb2 : boundedBy (runPass2 out1 storage) 26 :=
    runPass2_boundedBy storage out1 hnd
      (boundedBy_mono out1 18 26 (by omega) hb1)
      (fun l _ v hv => hb1 l v hv)
  have hb3 : boundedBy out3 31 :=
    runPass3_boundedBy after _ out3 (hpw.imp (fun h => Or.inl h)) h3
      (boundedBy_mono _ 26 31 (by omega) hb2)
      (fun l _ k v _ hv => hb2 k v hv)
  exact ⟨hb1, hb2, hb3⟩

theorem c4_witness :
    boundedBy [("a/b" ++ "\n", 18)] 18 ∧
    boundedBy (runPass2 [("a/b" ++ "\n", 18)] ["c/d\n"]) 26 ∧
    boundedBy [("a/b" ++ "\n", 23), ("c/d\n", 8)] 31 :=
  c4_tally_bound_amended ["0 1 2 3 4 5 6 a/b 8 9 A\n"] ["c/d\n"]
    ["0 1 2 3 4 5 6 a/b 8 9 A\n"] [("a/b" ++ "\n", 18)]
    [("a/b" ++ "\n", 23), ("c/d\n", 8)]
    (by decide) (by decide) (by decide) (by decide)

/-- C5: on well-formed input the two-list variant `consistency_check_fast`
and the streaming-map variant `consistency_check_faster` return identical
results (the same MISSING list and the same DARK list, hence equal sets). -/
theorem c5_variant_equivalence (before storage after : List String)
    (wfb : ∀ l ∈ before, wfLine l) (wfa : ∀ l ∈ after, wfLine l) :
    consistency_check_fast before storage after =
      consistency_check_faster before storage after := by
  obtain ⟨kb, sb, hpb, hrb⟩ := pass1_agree before [] wfb
  obtain ⟨ka, sa, hpa, hra⟩ :=
    pass3_agree after (runPass2 (fastPass1 [] kb sb) storage) wfa
  simp only [consistency_check_fast, consistency_check_faster, hpb, hrb, hpa, hra]

theorem c5_witness :
    consistency_check_fast ["0 1 2 3 4 5 6 a/b 8 9 A\n"] ["c/d\n"]
        ["0 1 2 3 4 5 6 a/b 8 9 A\n"] =
      consistency_check_faster ["0 1 2 3 4 5 6 a/b 8 9 A\n"] ["c/d\n"]
        ["0 1 2 3 4 5 6 a/b 8 9 A\n"] :=
  c5_variant_equivalence _ _ _ (by decide) (by decide)

/-- C6 counterexample: the generic profile writes the label immediately
followed by the transformed identifier, with no comma after the label, and
the atlas profile labels the catalog-side anomalies LOST, not MISSING. -/
theorem c6_counterexample :
    generic_result_lines [] ["a/b\n"] = ["DARKa,b\n"] ∧
    "DARKa,b\n" ≠ "DARK" ++ "," ++ replaceFirstSlash "a/b\n" ∧
    atlas_result_lines ["m/n\n"] [] = ["LOSTm,n\n"] := by
  refine ⟨?_, ?_, ?_⟩
  · decide
  · decide
  · decide

/-- C6 amended: every line of the generic profile's result file is the
literal label DARK or MISSING immediately followed by the identifier with its
first path separator replaced by a comma; no comma separates the label from
the identifier (and the atlas profile writes DARK and LOST labels). -/
theorem c6_result_line_format_amended (missing dark : List String)
    (line : String) (h : line ∈ generic_result_lines missing dark) :
    (∃ k ∈ dark, line = "DARK" ++ replaceFirstSlash k) ∨
    (∃ k ∈ missing, line = "MISSING" ++ replaceFirstSlash k) := by
  simp only [generic_result_lines, List.mem_append, List.mem_map] at h
  rcases h with ⟨k, hk, rfl⟩ | ⟨k, hk, rfl⟩
  · exact Or.inl ⟨k, hk, rfl⟩
  · exact Or.inr ⟨k, hk, rfl⟩

theorem c6_witness :
    (∃ k ∈ ["a/b\n"], "DARKa,b\n" = "DARK" ++ replaceFirstSlash k) ∨
    (∃ k ∈ ["m/n\n"], "DARKa,b\n" = "MISSING" ++ replaceFirstSlash k) :=
  c6_result_line_format_amended ["m/n\n"] ["a/b\n"] "DARKa,b\n" (by decide)

/-- C7 counterexample: the key stored for a catalog line is `parts[7]+'\n'`,
which carries a trailing newline, contradicting the claim that every stored
key is free of trailing newline. -/
theorem c7_counterexample :
    runPass1 [] ["0 1 2 3 4 5 6 a/b 8 9 A\n"] = .ok [("a/b\n", 18)] ∧
    "a/b\n" ∈ OutMap.keys [("a/b\n", 18)] ∧
    ("a/b\n").data.getLast? = some '\n' := by
  refine ⟨?_, ?_, ?_⟩
  · decide
  · decide
  · decide

/-- C7 amended: every key of the final reconciliation state is either the
8th whitespace field of a catalog line with one `'\n'` appended, or a raw
storage-dump line (terminator included); keys are compared by exact byte
equality with the newline included. -/
theorem c7_key_provenance_amended (before storage after : List String)
    (out1 out3 : OutMap)
    (h1 : runPass1 [] before = .ok out1)
    (h3 : runPass3 (runPass2 out1 storage) after = .ok out3) :
    ∀ x ∈ OutMap.keys out3,
      (∃ l ∈ before, ∃ p7, (pySplit l).get? 7 = some p7 ∧ x = p7 ++ "\n") ∨
      x ∈ storage ∨
      (∃ l ∈ after, ∃ p7, (pySplit l).get? 7 = some p7 ∧ x = p7 ++ "\n") := by
  intro x hx
  rcases runPass3_keys_sub x after _ out3 h3 hx with h | h
  · rcases runPass2_keys_sub x storage out1 h with h' | h'
    · rcases runPass1_keys_sub x before [] out1 h1 h' with h'' | h''
      · simp [OutMap.keys] at h''
      · obtain ⟨l, hl, hk⟩ := h''
        obtain ⟨p7, h7, hx'⟩ := keyOf_some_elim l x hk
        exact Or.inl ⟨l, hl, p7, h7, hx'⟩
    · exact Or.inr (Or.inl h')
  · obtain ⟨l, hl, hk⟩ := h
    obtain ⟨p7, h7, hx'⟩ := keyOf_some_elim l x hk
    exact Or.inr (Or.inr ⟨l, hl, p7, h7, hx'⟩)

theorem c7_witness :
    (∃ l ∈ ["0 1 2 3 4 5 6 a/b 8 9 A\n"], ∃ p7,
      (pySplit l).get? 7 = some p7 ∧ "a/b\n" = p7 ++ "\n") ∨
    "a/b\n" ∈ ["c/d\n"] ∨
    (∃ l ∈ ["0 1 2 3 4 5 6 a/b 8 9 A\n"], ∃ p7,
      (pySplit l).get? 7 = some p7 ∧ "a/b\n" = p7 ++ "\n") :=
  c7_key_provenance_amended ["0 1 2 3 4 5 6 a/b 8 9 A\n"] ["c/d\n"]
    ["0 1 2 3 4 5 6 a/b 8 9 A\n"] [("a/b" ++ "\n", 18)]
    [("a/b" ++ "\n", 23), ("c/d\n", 8)]
    (by decide) (by decide) "a/b\n" (by decide)

/-- C8 counterexample: a catalog-after line with 8 fields (fewer than 11)
whose identifier is not yet in the state does not abort the run: the engine
returns successfully, so the claim that every such input fails is false. -/
theorem c8_counterexample :
    (pySplit "0 1 2 3 4 5 6 f7").length = 8 ∧
    consistency_check_faster [] [] ["0 1 2 3 4 5 6 f7"] = .ok ([], []) ∧
    consistency_check_faster [] [] ["0 1 2 3 4 5 6 f7"] ≠ .error .indexError := by
  refine ⟨?_, ?_, ?_⟩
  · decide
  · decide
  · decide

/-- C8 amended: a catalog-before line with fewer than 11 fields always aborts
the run with the index error (the spec's MalformedCatalogLine), as does any
catalog line with fewer than 8 fields (such as Scenario D's 5-field line);
on abort `generic_auditor` writes no result file and returns nothing.  A
catalog-after line with 8-10 fields whose identifier is fresh is instead
silently inserted with tally 4. -/
theorem c8_malformed_line_amended (before storage after : List String) :
    ((∃ l ∈ before, (pySplit l).length < 11) →
      ∃ e, consistency_check_faster before storage after = .error e) ∧
    ((∀ l ∈ before, wfLine l) → (∃ l ∈ after, (pySplit l).length < 8) →
      ∃ e, consistency_check_faster before storage after = .error e) ∧
    (∀ rd rse ds keepDumps,
      (∃ e, consistency_check before storage after = .error e) →
      (generic_auditor rd rse ds false false keepDumps
          before storage after).writtenLines = none ∧
      (generic_auditor rd rse ds false false keepDumps
          before storage after).returned = none) := by
  refine ⟨?_, ?_, ?_⟩
  · intro hbad
    obtain ⟨e, he⟩ := runPass1_error_of_bad before [] hbad
    exact ⟨e, by simp only [consistency_check_faster, he]⟩
  · intro hwfb hshort
    obtain ⟨out1, h1⟩ := runPass1_ok_of_wf before hwfb []
    obtain ⟨e, he⟩ := runPass3_error_of_short after (runPass2 out1 storage) hshort
    exact ⟨e, by simp only [consistency_check_faster, h1, he]⟩
  · rintro rd rse ds keepDumps ⟨e, he⟩
    constructor
    · simp [generic_auditor, he]
    · simp [generic_auditor, he]

theorem c8_witness :
    (∃ e, consistency_check_faster ["a b c d e"] [] [] = .error e) ∧
    (generic_auditor "r" "RSE" "20250101" false false false
        ["a b c d e"] [] []).writtenLines = none :=
  ⟨(c8_malformed_line_amended ["a b c d e"] [] []).1
      ⟨"a b c d e", by decide, by decide⟩,
    ((c8_malformed_line_amended ["a b c d e"] [] []).2.2 "r" "RSE" "20250101" false
      ⟨.indexError, by decide⟩).1⟩

/-- C10: when a results file for the RSE and date already exists (plain or
with a .bz2 suffix), `generic_auditor` returns the computed results path
without running the consistency check and without writing to the results
file, and removes the cached dumps exactly when `keep_dumps` is not set. -/
theorem c10_skip_existing_results (rd rse ds : String)
    (resultsExists bz2Exists keepDumps : Bool)
    (before storage after : List String)
    (h : (resultsExists || bz2Exists) = true) :
    generic_auditor rd rse ds resultsExists bz2Exists keepDumps
        before storage after =
      { returned := some (results_path rd rse ds), ranCheck := false,
        writtenLines := none, removedDumps := !keepDumps } := by
  simp [generic_auditor, h]

theorem c10_witness :
    generic_auditor "r" "RSE" "20250101" true false true [] [] [] =
      { returned := some (results_path "r" "RSE" "20250101"), ranCheck := false,
        writtenLines := none, removedDumps := !true } :=
  c10_skip_existing_results "r" "RSE" "20250101" true false true [] [] []
    (by decide)
